import Mathlib

/-!
Verification of the hideDot link-reconciliation engine (Go sources
`src/main.go` and the secondary variant) against its specification.

The development shallowly embeds:
  * the Unix `path/filepath` operations the code uses (`Clean`, `Join`,
    `Dir`, `Base`, `IsAbs`, `Abs`),
  * the path helpers `expandPath` / `expandSourcePath`,
  * SHA-256 and hex encoding (for `getBackupPath`),
  * a flat filesystem model (paths mapped to entries) together with the
    reconciler `createLink`, the duplicate scanner `checkForDuplicates`,
    backup management (`createBackup` / `restoreBackup` / `getBackupPath`),
    the default-policy resolver `getDefaultOptions`, and the status-report
    ordering of `RunStatus`.
All mutating filesystem actions are routed through the `execFs` seam,
mirroring `Logger.execute` in the source.
-/

namespace HideDot

/-! ## Path model: Go `path/filepath` on Unix -/

/-- Split a character list into slash-separated components.
`splitGo cur l` prepends the pending component `cur` (reversed). -/
def splitGo (cur : List Char) : List Char → List (List Char)
  | [] => [cur.reverse]
  | c :: cs => if c = '/' then cur.reverse :: splitGo [] cs else splitGo (c :: cur) cs

/-- All slash-separated components of a path. -/
def splitSlash (l : List Char) : List (List Char) := splitGo [] l

/-- One step of Go's `filepath.Clean` component processing: skip empty and
`.` components, resolve `..` against the stack (dropping it at the root of
an absolute path, keeping it at the front of a relative path). -/
def cleanStep (abs : Bool) (stack : List (List Char)) (part : List Char) : List (List Char) :=
  if part = [] ∨ part = ['.'] then stack
  else if part = ['.', '.'] then
    match stack with
    | [] => if abs then [] else [['.', '.']]
    | top :: rest => if top = ['.', '.'] then part :: top :: rest else rest
  else part :: stack

/-- The cleaned components of a path, in order. -/
def cleanParts (abs : Bool) (ps : List (List Char)) : List (List Char) :=
  (ps.foldl (cleanStep abs) []).reverse

/-- Join components with `/` separators. -/
def joinParts : List (List Char) → List Char
  | [] => []
  | [p] => p
  | p :: q :: ps => p ++ '/' :: joinParts (q :: ps)

/-- Whether a path (as characters) is absolute, i.e. starts with `/`. -/
def isAbsChars : List Char → Bool
  | '/' :: _ => true
  | _ => false

/-- Go `filepath.IsAbs` on Unix. -/
def isAbsPath (p : String) : Bool := isAbsChars p.data

/-- Go `filepath.Clean` on Unix: shortest lexically equivalent path. -/
def goClean (p : String) : String :=
  if p = "" then "." else
  let abs := isAbsChars p.data
  let parts := cleanParts abs (splitSlash p.data)
  if abs then ⟨'/' :: joinParts parts⟩
  else if parts = [] then "." else ⟨joinParts parts⟩

/-- Go `filepath.Join` of two elements on Unix: empty elements are
skipped, the rest joined with `/` and cleaned. -/
def goJoin (a b : String) : String :=
  if a = "" then (if b = "" then "" else goClean b)
  else if b = "" then goClean a
  else goClean ⟨a.data ++ '/' :: b.data⟩

/-- Go `filepath.Dir` on Unix: everything up to the final slash, cleaned
(`.` when there is no slash). -/
def goDir (p : String) : String :=
  goClean ⟨(p.data.reverse.dropWhile (fun c => c != '/')).reverse⟩

/-- Go `filepath.Base` on Unix: last element after stripping trailing
slashes; `.` for the empty path, `/` for an all-slash path. -/
def goBase (p : String) : String :=
  if p = "" then "." else
  let r := p.data.reverse.dropWhile (fun c => c == '/')
  if r = [] then "/" else ⟨(r.takeWhile (fun c => c != '/')).reverse⟩

/-- The characters after the last `/` of a string (the whole string when
it has no slash). -/
def lastPartAfterSlash (p : String) : List Char :=
  (p.data.reverse.takeWhile (fun c => c != '/')).reverse

/-! ## Path helpers of the application (`expandPath`, `expandSourcePath`,
`filepath.Abs`) -/

/-- `expandPath` from `main.go`: expand a leading `~` to the home
directory; all other paths pass through unchanged. -/
def expandPath (path home : String) : String :=
  if path = "~" then home
  else match path.data with
    | '~' :: '/' :: rest => goJoin home ⟨rest⟩
    | _ => path

/-- `expandSourcePath` from `main.go`: expand the home alias, keep
absolute results, resolve relative results against the execution
directory. -/
def expandSourcePath (path home execDir : String) : String :=
  let p := expandPath path home
  if isAbsPath p then p else goJoin execDir p

/-- Go `filepath.Abs` given the working directory: clean an absolute
path, join a relative path onto the working directory. -/
def goAbs (cwd p : String) : String :=
  if isAbsPath p then goClean p else goJoin cwd p

/-! ## SHA-256 (`crypto/sha256`), hex encoding and `getBackupPath` -/

/-- Word arithmetic modulus (2^32). -/
def m32 : Nat := 4294967296

/-- Rotate a 32-bit word right by `n` bits. -/
def rotr32 (n x : Nat) : Nat := (x % m32) / 2 ^ n + (x % 2 ^ n) * 2 ^ (32 - n)

/-- Shift a 32-bit word right by `n` bits. -/
def shr32 (n x : Nat) : Nat := x / 2 ^ n

/-- Three-way xor. -/
def xor3 (a b c : Nat) : Nat := Nat.xor (Nat.xor a b) c

/-- Bitwise complement of a 32-bit word. -/
def not32 (x : Nat) : Nat := 4294967295 - x % m32

/-- SHA-256 `Σ0`. -/
def bigS0 (x : Nat) : Nat := xor3 (rotr32 2 x) (rotr32 13 x) (rotr32 22 x)

/-- SHA-256 `Σ1`. -/
def bigS1 (x : Nat) : Nat := xor3 (rotr32 6 x) (rotr32 11 x) (rotr32 25 x)

/-- SHA-256 `σ0`. -/
def smallS0 (x : Nat) : Nat := xor3 (rotr32 7 x) (rotr32 18 x) (shr32 3 x)

/-- SHA-256 `σ1`. -/
def smallS1 (x : Nat) : Nat := xor3 (rotr32 17 x) (rotr32 19 x) (shr32 10 x)

/-- SHA-256 `Ch`. -/
def shaCh (e f g : Nat) : Nat := Nat.xor (Nat.land e f) (Nat.land (not32 e) g)

/-- SHA-256 `Maj`. -/
def shaMaj (a b c : Nat) : Nat := xor3 (Nat.land a b) (Nat.land a c) (Nat.land b c)

/-- The eight 32-bit working variables of SHA-256. -/
structure Hash8 where
  a : Nat
  b : Nat
  c : Nat
  d : Nat
  e : Nat
  f : Nat
  g : Nat
  h : Nat
deriving DecidableEq

/-- One SHA-256 round given the round constant and schedule word. -/
def shaRound (s : Hash8) (kw : Nat × Nat) : Hash8 :=
  let t1 := (s.h + bigS1 s.e + shaCh s.e s.f s.g + kw.1 + kw.2) % m32
  let t2 := (bigS0 s.a + shaMaj s.a s.b s.c) % m32
  ⟨(t1 + t2) % m32, s.a, s.b, s.c, (s.d + t1) % m32, s.e, s.f, s.g⟩

/-- The next message-schedule word from the ones computed so far. -/
def nextW (ws : List Nat) : Nat :=
  let n := ws.length
  (smallS1 (ws.getD (n - 2) 0) + ws.getD (n - 7) 0 +
    smallS0 (ws.getD (n - 15) 0) + ws.getD (n - 16) 0) % m32

/-- Extend the 16 block words by `k` further schedule words. -/
def extendWs : Nat → List Nat → List Nat
  | 0, ws => ws
  | k + 1, ws => extendWs k (ws ++ [nextW ws])

/-- Group bytes into big-endian 32-bit words. -/
def bytesToWords : List Nat → List Nat
  | b0 :: b1 :: b2 :: b3 :: rest =>
      (((b0 * 256 + b1) * 256 + b2) * 256 + b3) :: bytesToWords rest
  | _ => []

/-- The 64 SHA-256 round constants. -/
def shaK : List Nat :=
  [1116352408, 1899447441, 3049323471, 3921009573, 961987163, 1508970993,
   2453635748, 2870763221, 3624381080, 310598401, 607225278, 1426881987,
   1925078388, 2162078206, 2614888103, 3248222580, 3835390401, 4022224774,
   264347078, 604807628, 770255983, 1249150122, 1555081692, 1996064986,
   2554220882, 2821834349, 2952996808, 3210313671, 3336571891, 3584528711,
   113926993, 338241895, 666307205, 773529912, 1294757372, 1396182291,
   1695183700, 1986661051, 2177026350, 2456956037, 2730485921, 2820302411,
   3259730800, 3345764771, 3516065817, 3600352804, 4094571909, 275423344,
   430227734, 506948616, 659060556, 883997877, 958139571, 1322822218,
   1537002063, 1747873779, 1955562222, 2024104815, 2227730452, 2361852424,
   2428436474, 2756734187, 3204031479, 3329325298]

/-- The SHA-256 initial hash value. -/
def shaH0 : Hash8 :=
  ⟨1779033703, 3144134277, 1013904242, 2773480762, 1359893119, 2600822924, 528734635, 1541459225⟩

/-- Compress one 64-byte block into the running hash. -/
def shaCompress (hh : Hash8) (block : List Nat) : Hash8 :=
  let w := extendWs 48 (bytesToWords block)
  let t := (shaK.zip w).foldl shaRound hh
  ⟨(hh.a + t.a) % m32, (hh.b + t.b) % m32, (hh.c + t.c) % m32, (hh.d + t.d) % m32,
   (hh.e + t.e) % m32, (hh.f + t.f) % m32, (hh.g + t.g) % m32, (hh.h + t.h) % m32⟩

/-- `n` big-endian bytes of a natural number. -/
def toBytesBE : Nat → Nat → List Nat
  | 0, _ => []
  | k + 1, x => toBytesBE k (x / 256) ++ [x % 256]

/-- SHA-256 message padding: `0x80`, zeros, then the 64-bit bit length. -/
def shaPad (msg : List Nat) : List Nat :=
  let rem := (msg.length + 1) % 64
  let zeros := (64 + 56 - rem) % 64
  msg ++ 128 :: List.replicate zeros 0 ++ toBytesBE 8 (msg.length * 8)

/-- Split a byte list into 64-byte blocks (fuel-driven). -/
def chunks64 : Nat → List Nat → List (List Nat)
  | 0, _ => []
  | _, [] => []
  | fuel + 1, l => l.take 64 :: chunks64 fuel (l.drop 64)

/-- The 32-byte SHA-256 digest of a byte list. -/
def sha256 (msg : List Nat) : List Nat :=
  let padded := shaPad msg
  let hh := (chunks64 padded.length padded).foldl shaCompress shaH0
  [hh.a, hh.b, hh.c, hh.d, hh.e, hh.f, hh.g, hh.h].foldr (fun w acc => toBytesBE 4 w ++ acc) []

/-- UTF-8 encoding of one character. -/
def utf8Char (c : Char) : List Nat :=
  let n := c.toNat
  if n < 128 then [n]
  else if n < 2048 then [192 + n / 64, 128 + n % 64]
  else if n < 65536 then [224 + n / 4096, 128 + n / 64 % 64, 128 + n % 64]
  else [240 + n / 262144, 128 + n / 4096 % 64, 128 + n / 64 % 64, 128 + n % 64]

/-- The UTF-8 bytes of a string (Go's `[]byte(s)`). -/
def strBytes (s : String) : List Nat := s.data.flatMap utf8Char

/-- Lowercase hex digit. -/
def hexDigit (n : Nat) : Char :=
  "0123456789abcdef".data.getD n '0'

/-- Lowercase hex encoding of a byte list (Go's `hex.EncodeToString`). -/
def hexEncode (bs : List Nat) : List Char :=
  bs.flatMap (fun b => [hexDigit (b / 16), hexDigit (b % 16)])

/-- The first 8 hex characters of the SHA-256 digest of a string
(`hex.EncodeToString(hash[:])[:8]` in `getBackupPath`). -/
def shortHashChars (t : String) : List Char := (hexEncode (sha256 (strBytes t))).take 8

/-- `getBackupPath` from `main.go`: the backup directory joined with
`<base name>_<first 8 hex chars of the SHA-256 of the target path>`. -/
def getBackupPath (backupDir targetPath : String) : String :=
  goJoin backupDir ⟨(goBase targetPath).data ++ '_' :: shortHashChars targetPath⟩

/-! ## Flat filesystem model

A filesystem state is a finite map from path strings to entries,
represented as an association list with unique keys.  Directory contents
are implicit: the children of a directory `d` are the keys whose
`goDir` is `d`.  A symlink stores its raw destination; `none` models a
link whose destination cannot be read (`os.Readlink` fails). -/

/-- A filesystem entry: regular file (with content), directory, or
symbolic link (destination `none` when `Readlink` fails on it). -/
inductive Entry where
  | file (content : String)
  | dir
  | symlink (dest : Option String)
deriving DecidableEq

/-- A flat filesystem: association list from paths to entries. -/
abbrev Fs := List (String × Entry)

/-- Look up the entry at a path. -/
def lookupFs (fs : Fs) (k : String) : Option Entry :=
  match fs with
  | [] => none
  | kv :: rest => if kv.1 = k then some kv.2 else lookupFs rest k

/-- Write (create or overwrite) the entry at a path. -/
def setFs (fs : Fs) (k : String) (e : Entry) : Fs :=
  (k, e) :: fs.filter (fun kv => kv.1 != k)

/-- Remove the entry at a path (`os.Remove` on a file or link). -/
def eraseKeyFs (fs : Fs) (k : String) : Fs :=
  fs.filter (fun kv => kv.1 != k)

/-- Whether `pre` is a list prelude of `l`. -/
def startsWithChars : List Char → List Char → Bool
  | [], _ => true
  | _, [] => false
  | a :: as', b :: bs => a = b && startsWithChars as' bs

/-- Remove a path and everything below it (`os.RemoveAll`). -/
def eraseTreeFs (fs : Fs) (k : String) : Fs :=
  fs.filter (fun kv => !(kv.1 == k || startsWithChars (k.data ++ ['/']) kv.1.data))

/-- `checkPathExists` from `main.go` (via `os.Lstat`): whether the path
exists and whether it is a directory. -/
def checkPathExistsFs (fs : Fs) (p : String) : Bool × Bool :=
  match lookupFs fs p with
  | none => (false, false)
  | some .dir => (true, true)
  | some _ => (true, false)

/-- `os.MkdirAll`, flattened to the queried directory: ensure a
directory entry exists at `p` (the model does not track intermediate
ancestors, which no reconciler decision inspects). -/
def mkdirAllFs (fs : Fs) (p : String) : Fs :=
  match lookupFs fs p with
  | some _ => fs
  | none => setFs fs p .dir

/-- The destination key for copying `k` out of the tree at `src` into
the tree at `dst`. -/
def mapTreeKey (src dst k : String) : String :=
  ⟨dst.data ++ k.data.drop src.data.length⟩

/-- `copyDir` from `main.go`, as its net effect on the flat model: every
entry at `src` or below is copied to the corresponding path below
`dst`. -/
def copyTreeFs (src dst : String) (fs : Fs) : Fs :=
  (fs.filter (fun kv => kv.1 == src || startsWithChars (src.data ++ ['/']) kv.1.data)).foldl
    (fun acc kv => setFs acc (mapTreeKey src dst kv.1) kv.2) fs

/-- `copyFile` from `main.go` on the model: fails when the source is
absent, otherwise copies the entry to `dst`. -/
def copyFileOp (src dst : String) (fs : Fs) : Option Fs :=
  match lookupFs fs src with
  | some e => some (setFs fs dst e)
  | none => none

/-- `copyDir` as a fallible operation: fails when the source is absent. -/
def copyDirOp (src dst : String) (fs : Fs) : Option Fs :=
  match lookupFs fs src with
  | some _ => some (copyTreeFs src dst fs)
  | none => none

/-- `os.Symlink(source, target)`: fails when the target path already
exists, otherwise creates the link at `tgt` pointing to `src`. -/
def symlinkOp (src tgt : String) (fs : Fs) : Option Fs :=
  match lookupFs fs tgt with
  | some _ => none
  | none => some (setFs fs tgt (.symlink (some src)))

/-- Key uniqueness invariant of the flat filesystem. -/
def WfFs (fs : Fs) : Prop := (fs.map Prod.fst).Nodup

/-! ## Logger state and the `execute` seam -/

/-- The mutable logger counters (`Logger.successCount` etc.) together
with the filesystem, threaded through the reconciler. -/
structure St where
  fs : Fs
  successCount : Nat
  warnCount : Nat
  errorCount : Nat
deriving DecidableEq

/-- Increment the warning counter (`Logger.warn`). -/
def St.addWarn (st : St) : St := { st with warnCount := st.warnCount + 1 }

/-- `Logger.execute`: in dry-run mode return `nil` without invoking the
action; otherwise run it, keeping the old state on failure.  The boolean
result records whether the action returned an error. -/
def execFs (dry : Bool) (act : Fs → Option Fs) (fs : Fs) : Fs × Bool :=
  if dry then (fs, false)
  else match act fs with
    | some fs2 => (fs2, false)
    | none => (fs, true)

/-! ## The reconciler (`createLink` and helpers from `main.go`) -/

/-- Execution context: home directory, execution directory, working
directory, backup root and the dry-run flag. -/
structure Env where
  home : String
  execDir : String
  cwd : String
  backupDir : String
  dryRun : Bool

/-- The branch `createLink` finishes in for one declaration, mirroring
the log line it emits. -/
inductive Outcome where
  | alreadyCorrect
  | created
  | createFailed
  | skippedSourceMissing
  | skippedParentInvalid
  | skippedNoRelink
  | skippedNotSymlinkNoForce
deriving DecidableEq

/-- The reconciler's absolute target path for a declaration. -/
def linkTargetPath (env : Env) (target : String) : String :=
  expandPath target env.home

/-- The reconciler's absolute source path for a declaration
(`expandSourcePath` then `filepath.Abs`). -/
def linkSourcePath (env : Env) (source : String) : String :=
  goAbs env.cwd (expandSourcePath source env.home env.execDir)

/-- Resolve a raw symlink destination: a relative destination is joined
onto the link's directory, then made absolute (`main.go` lines 766-770
and 947-950). -/
def resolveDest (cwd dir dest : String) : String :=
  goAbs cwd (if isAbsPath dest then dest else goJoin dir dest)

/-- Whether a filesystem entry is a duplicate alias: a sibling of the
target (same parent directory, different path) that is a readable
symlink resolving to the source path. -/
def isDupEntry (cwd targetDir targetPath sourcePath : String) (kv : String × Entry) : Bool :=
  kv.1 != targetPath && kv.1 != targetDir && goDir kv.1 == targetDir &&
    (match kv.2 with
     | .symlink (some d) => resolveDest cwd targetDir d == sourcePath
     | _ => false)

/-- Removal of one duplicate: warn, then delete through the execute
seam. -/
def removeDupStep (dry : Bool) (st : St) (kv : String × Entry) : St :=
  let st1 := st.addWarn
  { st1 with fs := (execFs dry (fun fs => some (eraseKeyFs fs kv.1)) st1.fs).1 }

/-- `checkForDuplicates` from `main.go`: list the target's parent
directory (a listing failure is silently ignored) and remove every
sibling symlink that resolves to the source path. -/
def checkForDuplicates (cwd : String) (dry : Bool) (targetPath sourcePath : String) (st : St) : St :=
  let targetDir := goDir targetPath
  match lookupFs st.fs targetDir with
  | some .dir =>
      (st.fs.filter (isDupEntry cwd targetDir targetPath sourcePath)).foldl (removeDupStep dry) st
  | _ => st

/-- `createBackup` from `main.go`: copy the target (file or directory
tree) to its backup path through the execute seam, counting an error on
failure. -/
def createBackup (env : Env) (targetPath : String) (isDir : Bool) (st : St) : St :=
  let bp := getBackupPath env.backupDir targetPath
  let r := execFs env.dryRun (fun fs =>
      let fs1 := mkdirAllFs fs (goDir bp)
      if isDir then copyDirOp targetPath bp fs1 else copyFileOp targetPath bp fs1) st.fs
  if r.2 then { st with fs := r.1, errorCount := st.errorCount + 1 }
  else { st with fs := r.1 }

/-- The final symlink-creation step of `createLink`: an OS-level failure
is counted as an error; success is counted only outside dry-run. -/
def createLinkFinish (env : Env) (targetPath sourcePath : String) (st : St) : St × Outcome :=
  let r := execFs env.dryRun (symlinkOp sourcePath targetPath) st.fs
  if r.2 then ({ st with fs := r.1, errorCount := st.errorCount + 1 }, .createFailed)
  else if env.dryRun then ({ st with fs := r.1 }, .created)
  else ({ st with fs := r.1, successCount := st.successCount + 1 }, .created)

/-- The non-symlink branch of `createLink`: with `force`, back up (when
enabled) and remove the existing path, then create; without `force`,
warn and skip. -/
def forcePath (env : Env) (force backup : Bool) (targetPath sourcePath : String) (isDir : Bool)
    (st : St) : St × Outcome :=
  if force then
    let st1 := if backup then createBackup env targetPath isDir st else st
    let st2 := st1.addWarn
    let st3 := { st2 with fs := (execFs env.dryRun (fun fs => some (eraseTreeFs fs targetPath)) st2.fs).1 }
    createLinkFinish env targetPath sourcePath st3
  else (st.addWarn, .skippedNotSymlinkNoForce)

/-- `createLink` after the source and parent checks: duplicate scan,
target inspection and the policy decision (`main.go` lines 755-812). -/
def createLinkRest (env : Env) (force relink backup : Bool) (targetPath sourcePath : String)
    (st : St) : St × Outcome :=
  let st2 := checkForDuplicates env.cwd env.dryRun targetPath sourcePath st
  match lookupFs st2.fs targetPath with
  | some (.symlink (some cur)) =>
      if resolveDest env.cwd (goDir targetPath) cur == sourcePath then
        ({ st2 with successCount := st2.successCount + 1 }, .alreadyCorrect)
      else if relink then
        let st3 := st2.addWarn
        let st4 := { st3 with fs := (execFs env.dryRun (fun fs => some (eraseKeyFs fs targetPath)) st3.fs).1 }
        createLinkFinish env targetPath sourcePath st4
      else (st2, .skippedNoRelink)
  | some (.symlink none) => createLinkFinish env targetPath sourcePath st2
  | some .dir => forcePath env force backup targetPath sourcePath true st2
  | some (.file _) => forcePath env force backup targetPath sourcePath false st2
  | none => createLinkFinish env targetPath sourcePath st2

/-- `createLink` from `main.go`: resolve paths, require the source to
exist and the parent to be (or become) a directory, then reconcile. -/
def createLink (env : Env) (force relink backup : Bool) (target source : String) (st : St) :
    St × Outcome :=
  let targetPath := linkTargetPath env target
  let sourcePath := linkSourcePath env source
  if (checkPathExistsFs st.fs sourcePath).1 = false then
    ({ st with errorCount := st.errorCount + 1 }, .skippedSourceMissing)
  else
    let parentDir := goDir targetPath
    let pe := checkPathExistsFs st.fs parentDir
    if pe.1 = false then
      let st1 := { st with fs := (execFs env.dryRun (fun fs => some (mkdirAllFs fs parentDir)) st.fs).1 }
      createLinkRest env force relink backup targetPath sourcePath st1
    else if pe.2 = false then
      ({ st with errorCount := st.errorCount + 1 }, .skippedParentInvalid)
    else
      createLinkRest env force relink backup targetPath sourcePath st

/-- The link loop of `RunLink`: process each declaration in order,
collecting the branch each one finished in. -/
def processLinks (env : Env) (force relink backup : Bool) (links : List (String × String))
    (st : St) : St × List Outcome :=
  links.foldl
    (fun acc ts =>
      let r := createLink env force relink backup ts.1 ts.2 acc.1
      (r.1, acc.2 ++ [r.2]))
    (st, [])

/-- `restoreBackup` from `main.go`: a no-op (a debug line only) when no
backup exists at the computed path; otherwise copy the backup back onto
the target through the execute seam. -/
def restoreBackup (env : Env) (targetPath : String) (st : St) : St :=
  let bp := getBackupPath env.backupDir targetPath
  let pe := checkPathExistsFs st.fs bp
  if pe.1 = false then st
  else
    let r := execFs env.dryRun (fun fs =>
        if pe.2 then copyDirOp bp targetPath fs else copyFileOp bp targetPath fs) st.fs
    if r.2 then { st with fs := r.1, errorCount := st.errorCount + 1 }
    else { st with fs := r.1, successCount := st.successCount + 1 }

/-! ## Default policy resolution and status ordering -/

/-- The `defaults.link` block of a configuration section (`main.go`). -/
structure LinkDefaults where
  relink : Bool
  force : Bool
  backup : Bool

/-- `getDefaultOptions` from `main.go`: `(force, relink, backup)`,
with backup enabled by default when no defaults block is present. -/
def getDefaultOptions (defaults : Option LinkDefaults) : Bool × Bool × Bool :=
  match defaults with
  | none => (false, false, true)
  | some d => (d.force, d.relink, d.backup)

/-- The `defaults.link` block of the secondary variant (no backup
field). -/
structure LinkDefaultsV0 where
  relink : Bool
  force : Bool

/-- `getDefaultOptions` from the secondary variant: `(force, relink)`. -/
def getDefaultOptionsV0 (defaults : Option LinkDefaultsV0) : Bool × Bool :=
  match defaults with
  | none => (false, false)
  | some d => (d.force, d.relink)

/-- Link health classification of `checkLinkStatus` (ordered as the Go
constants `StatusOK .. StatusNotSymlink`). -/
inductive LinkStatus where
  | ok
  | missing
  | broken
  | mismatch
  | notSymlink
deriving DecidableEq

/-- The numeric value of a status (the Go iota). -/
def LinkStatus.val : LinkStatus → Nat
  | .ok => 0
  | .missing => 1
  | .broken => 2
  | .mismatch => 3
  | .notSymlink => 4

/-- A classified link as displayed by `RunStatus`: status and target. -/
abbrev LinkRec := LinkStatus × String

/-- The `sort.Slice` comparator of `RunStatus`: status descending,
ties broken by target ascending. -/
def linkLess (a b : LinkRec) : Bool :=
  if a.1 = b.1 then a.2 < b.2 else b.1.val < a.1.val

/-- The total preorder `a` before-or-equal `b` induced by the
comparator. -/
def linkLe (a b : LinkRec) : Prop := linkLess b a = false

instance : DecidableRel linkLe := fun a b => by unfold linkLe; infer_instance

/-- The displayed order of the status report: the classified links
sorted by the `RunStatus` comparator. -/
def sortLinks (l : List LinkRec) : List LinkRec := l.insertionSort linkLe

/-- Modelled from the spec's words for C9: the claimed display order
groups by binary severity (every non-OK entry before every OK entry)
and breaks ties inside a severity group by lexicographic target order. -/
def specClaimedOrder (l : List LinkRec) : Prop :=
  l.Pairwise (fun x y => (x.1 = .ok → y.1 = .ok) ∧ ((x.1 = .ok ↔ y.1 = .ok) → x.2 ≤ y.2))

/-! ## Basic lemmas about the execute seam and dry-run -/

theorem execFs_dry (act : Fs → Option Fs) (fs : Fs) : execFs true act fs = (fs, false) := rfl

theorem removeDupStep_dry_fs (st : St) (kv : String × Entry) :
    (removeDupStep true st kv).fs = st.fs := rfl

theorem foldl_removeDupStep_dry_fs (l : List (String × Entry)) (st : St) :
    (l.foldl (removeDupStep true) st).fs = st.fs := by
  induction l generalizing st with
  | nil => rfl
  | cons kv rest ih => simpa [removeDupStep_dry_fs] using ih (removeDupStep true st kv)

theorem checkForDuplicates_dry_fs (cwd tp sp : String) (st : St) :
    (checkForDuplicates cwd true tp sp st).fs = st.fs := by
  simp only [checkForDuplicates]
  split
  · exact foldl_removeDupStep_dry_fs _ _
  · rfl

theorem createBackup_dry_fs (env : Env) (tp : String) (isDir : Bool) (st : St)
    (hdry : env.dryRun = true) : (createBackup env tp isDir st).fs = st.fs := by
  simp [createBackup, hdry, execFs]

theorem createLinkFinish_dry_fs (env : Env) (tp sp : String) (st : St)
    (hdry : env.dryRun = true) : (createLinkFinish env tp sp st).1.fs = st.fs := by
  simp [createLinkFinish, hdry, execFs]

theorem forcePath_dry_fs (env : Env) (force backup : Bool) (tp sp : String) (isDir : Bool)
    (st : St) (hdry : env.dryRun = true) :
    (forcePath env force backup tp sp isDir st).1.fs = st.fs := by
  simp only [forcePath]
  split
  · rw [createLinkFinish_dry_fs _ _ _ _ hdry]
    simp only [hdry, execFs, St.addWarn, if_true]
    split
    · exact createBackup_dry_fs _ _ _ _ hdry
    · rfl
  · rfl

theorem createLinkRest_dry_fs (env : Env) (force relink backup : Bool) (tp sp : String)
    (st : St) (hdry : env.dryRun = true) :
    (createLinkRest env force relink backup tp sp st).1.fs = st.fs := by
  have hdup : (checkForDuplicates env.cwd env.dryRun tp sp st).fs = st.fs := by
    rw [hdry]; exact checkForDuplicates_dry_fs _ _ _ _
  simp only [createLinkRest]
  split
  · split
    · simpa using hdup
    · split
      · rw [createLinkFinish_dry_fs _ _ _ _ hdry]
        simp [hdry, execFs, St.addWarn, checkForDuplicates_dry_fs]
      · simpa using hdup
  · rw [createLinkFinish_dry_fs _ _ _ _ hdry]; simpa using hdup
  · rw [forcePath_dry_fs _ _ _ _ _ _ _ hdry]; simpa using hdup
  · rw [forcePath_dry_fs _ _ _ _ _ _ _ hdry]; simpa using hdup
  · rw [createLinkFinish_dry_fs _ _ _ _ hdry]; simpa using hdup

theorem createLink_dry_fs (env : Env) (force relink backup : Bool) (target source : String)
    (st : St) (hdry : env.dryRun = true) :
    (createLink env force relink backup target source st).1.fs = st.fs := by
  simp only [createLink]
  split
  · rfl
  · split
    · rw [createLinkRest_dry_fs _ _ _ _ _ _ _ hdry]
      simp [hdry, execFs]
    · split
      · rfl
      · exact createLinkRest_dry_fs _ _ _ _ _ _ _ hdry

theorem processLinks_loop_dry_fs (env : Env) (force relink backup : Bool)
    (links : List (String × String)) (st : St) (acc : List Outcome)
    (hdry : env.dryRun = true) :
    (links.foldl
      (fun acc ts =>
        let r := createLink env force relink backup ts.1 ts.2 acc.1
        (r.1, acc.2 ++ [r.2]))
      (st, acc)).1.fs = st.fs := by
  induction links generalizing st acc with
  | nil => rfl
  | cons ts rest ih =>
      simp only [List.foldl_cons]
      rw [ih]
      exact createLink_dry_fs _ _ _ _ _ _ _ hdry

/-! ## Claim theorems -/

/-- C3: with the dry-run flag enabled, neither a single application of
`createLink` nor a full run of the link loop mutates the filesystem:
every mutating action goes through the `execFs` seam, which returns
without invoking the action in dry-run mode, while read-only probes
still consult the real state. -/
theorem c3_dryrun_noop :
    ∀ (home execDir cwd backupDir : String) (force relink backup : Bool)
      (links : List (String × String)) (target source : String) (st : St),
      (createLink ⟨home, execDir, cwd, backupDir, true⟩ force relink backup target source st).1.fs
          = st.fs ∧
      (processLinks ⟨home, execDir, cwd, backupDir, true⟩ force relink backup links st).1.fs
          = st.fs := by
  intro home execDir cwd backupDir force relink backup links target source st
  refine ⟨createLink_dry_fs _ _ _ _ _ _ _ rfl, ?_⟩
  exact processLinks_loop_dry_fs _ _ _ _ _ _ _ rfl

/-- C4: `expandPath` is pure and total; the bare home alias maps to the
home directory, an alias-prefixed path maps to the home directory joined
with the remainder after `~/`, and every other path (including `~user/x`
and absolute paths) is returned unchanged. -/
theorem c4_expand_path :
    (∀ home : String, expandPath "~" home = home) ∧
    (∀ home rest : String, expandPath ⟨'~' :: '/' :: rest.data⟩ home = goJoin home rest) ∧
    (∀ p home : String, p ≠ "~" → (∀ rest : List Char, p.data ≠ '~' :: '/' :: rest) →
      expandPath p home = p) := by
  refine ⟨fun home => by simp [expandPath], ?_, ?_⟩
  · intro home rest
    have hne : (⟨'~' :: '/' :: rest.data⟩ : String) ≠ "~" := by
      intro h
      simpa using congrArg (fun s => s.data.length) h
    simp only [expandPath, if_neg hne]
  · intro p home h1 h2
    simp only [expandPath, if_neg h1]

/-- Witness for C4 at the spec's own examples. -/
theorem c4_witness :
    expandPath "~" "/home/u" = "/home/u" ∧
    expandPath "~/x" "/home/u" = "/home/u/x" ∧
    expandPath "~user/x" "/home/u" = "~user/x" ∧
    expandPath "/abs/x" "/home/u" = "/abs/x" := by
  obtain ⟨h1, h2, h3⟩ := c4_expand_path
  refine ⟨h1 "/home/u", ?_, ?_, ?_⟩
  · have e := h2 "/home/u" "x"
    rw [show goJoin "/home/u" "x" = "/home/u/x" from by decide] at e
    exact e
  · exact h3 "~user/x" "/home/u" (by decide) (fun rest hh => by simp at hh)
  · exact h3 "/abs/x" "/home/u" (by decide) (fun rest hh => by simp at hh)

/-- C5 counterexample: the claim says `getDefaultOptions` returns
all-false when no defaults block is present, but `main.go` returns
backup enabled by default. -/
theorem c5_counterexample :
    getDefaultOptions none = (false, false, true) ∧
    getDefaultOptions none ≠ (false, false, false) := by
  exact ⟨rfl, by decide⟩

/-- C5 (amended): a section without a defaults block resolves to
`force=false, relink=false, backup=true` in `main.go` (the secondary
variant has no backup option and resolves to `force=false,
relink=false`); a section with a defaults block resolves to the
declared values, unset booleans defaulting to false through the YAML
zero value. -/
theorem c5_default_policy_amended :
    getDefaultOptions none = (false, false, true) ∧
    (∀ d : LinkDefaults, getDefaultOptions (some d) = (d.force, d.relink, d.backup)) ∧
    getDefaultOptionsV0 none = (false, false) ∧
    (∀ d : LinkDefaultsV0, getDefaultOptionsV0 (some d) = (d.force, d.relink)) :=
  ⟨rfl, fun _ => rfl, rfl, fun _ => rfl⟩

/-! ## Status-report ordering (C9) -/

theorem LinkStatus.val_inj : ∀ s1 s2 : LinkStatus, s1.val = s2.val → s1 = s2 := by
  intro s1 s2
  cases s1 <;> cases s2 <;> simp [LinkStatus.val]

theorem linkLe_iff (a b : LinkRec) :
    linkLe a b ↔ b.1.val < a.1.val ∨ (a.1 = b.1 ∧ a.2 ≤ b.2) := by
  unfold linkLe linkLess
  by_cases h : b.1 = a.1
  · rw [if_pos h]
    simp only [decide_eq_false_iff_not, not_lt]
    constructor
    · exact fun hle => Or.inr ⟨h.symm, hle⟩
    · rintro (hlt | ⟨-, hle⟩)
      · rw [h] at hlt; exact absurd hlt (Nat.lt_irrefl _)
      · exact hle
  · have hv : b.1.val ≠ a.1.val := fun hv => h (LinkStatus.val_inj _ _ hv)
    have h' : a.1 ≠ b.1 := fun e => h e.symm
    simp only [if_neg h, decide_eq_false_iff_not, not_lt, h', false_and, or_false]
    exact ⟨fun hle => Nat.lt_of_le_of_ne hle hv, Nat.le_of_lt⟩

instance : IsTotal LinkRec linkLe := by
  constructor
  intro a b
  rw [linkLe_iff, linkLe_iff]
  rcases Nat.lt_trichotomy a.1.val b.1.val with h | h | h
  · right; left; exact h
  · have hs : a.1 = b.1 := LinkStatus.val_inj _ _ h
    rcases le_total a.2 b.2 with ht | ht
    · left; right; exact ⟨hs, ht⟩
    · right; right; exact ⟨hs.symm, ht⟩
  · left; left; exact h

instance : IsTrans LinkRec linkLe := by
  constructor
  intro a b c hab hbc
  rw [linkLe_iff] at hab hbc ⊢
  rcases hab with h1 | ⟨h1, h1'⟩
  · rcases hbc with h2 | ⟨h2, h2'⟩
    · left; exact Nat.lt_trans h2 h1
    · left; rw [← h2]; exact h1
  · rcases hbc with h2 | ⟨h2, h2'⟩
    · left; rw [h1]; exact h2
    · right; exact ⟨h1.trans h2, h1'.trans h2'⟩

instance : IsAntisymm LinkRec linkLe := by
  constructor
  intro a b hab hba
  rw [linkLe_iff] at hab hba
  rcases hab with h1 | ⟨h1, h1'⟩
  · rcases hba with h2 | ⟨h2, h2'⟩
    · exact absurd (Nat.lt_trans h1 h2) (Nat.lt_irrefl _)
    · rw [h2] at h1; exact absurd h1 (Nat.lt_irrefl _)
  · rcases hba with h2 | ⟨h2, h2'⟩
    · rw [h1] at h2; exact absurd h2 (Nat.lt_irrefl _)
    · exact Prod.ext h1 (le_antisymm h1' h2')

/-- C9 counterexample: the comparator orders two non-OK entries by
status severity, not by target path: BROKEN at target `b` is displayed
before MISSING at target `a`, violating the claimed lexicographic
tie-break within the non-OK group. -/
theorem c9_counterexample :
    sortLinks [(.missing, "a"), (.broken, "b")] = [(.broken, "b"), (.missing, "a")] ∧
    ¬ specClaimedOrder (sortLinks [(.missing, "a"), (.broken, "b")]) := by
  constructor
  · decide
  · intro h
    rw [show sortLinks [(.missing, "a"), (.broken, "b")] = [(.broken, "b"), (.missing, "a")]
        from by decide] at h
    have hp := (List.pairwise_cons.1 h).1 (.missing, "a") (by simp)
    have hba : ("b" : String) ≤ "a" := hp.2 (by simp)
    rw [String.le_iff_toList_le] at hba
    revert hba
    decide

/-- C9 (amended): the display order sorts by the `RunStatus` comparator:
all non-OK entries precede all OK entries, entries with distinct
statuses are ordered by descending status severity, ties with equal
status are broken by lexicographic target order, the output is a
permutation of the input, and the order is the same function of the
multiset of classified links regardless of declaration order. -/
theorem c9_status_order_amended :
    ∀ l l' : List LinkRec,
      (sortLinks l).Pairwise (fun x y =>
        (x.1 = .ok → y.1 = .ok) ∧ (x.1 = y.1 → x.2 ≤ y.2) ∧ (x.1 ≠ y.1 → y.1.val < x.1.val)) ∧
      (sortLinks l).Perm l ∧
      (l.Perm l' → sortLinks l = sortLinks l') := by
  intro l l'
  refine ⟨?_, List.perm_insertionSort linkLe l, fun hp => ?_⟩
  · have hs := List.sorted_insertionSort linkLe l
    refine hs.imp (fun {x y} h => ?_)
    rw [linkLe_iff] at h
    rcases h with h | ⟨h, h'⟩
    · refine ⟨fun hok => ?_, fun he => ?_, fun _ => h⟩
      · rw [hok] at h; exact absurd h (Nat.not_lt_zero _)
      · rw [he] at h; exact absurd h (Nat.lt_irrefl _)
    · exact ⟨fun hok => h ▸ hok, fun _ => h', fun hne => absurd h hne⟩
  · exact List.eq_of_perm_of_sorted
      ((List.perm_insertionSort linkLe l).trans (hp.trans (List.perm_insertionSort linkLe l').symm))
      (List.sorted_insertionSort linkLe l) (List.sorted_insertionSort linkLe l')

/-- Witness for C9 (amended): two permuted two-element inputs sort to
the same report. -/
theorem c9_witness :
    sortLinks [(.ok, "a"), (.missing, "b")] = sortLinks [(.missing, "b"), (.ok, "a")] :=
  (c9_status_order_amended [(.ok, "a"), (.missing, "b")] [(.missing, "b"), (.ok, "a")]).2.2
    (List.Perm.swap ((.missing, "b") : LinkRec) ((.ok, "a") : LinkRec) [])

/-! ## Association-list lemmas for the filesystem model -/

theorem wf_key_eq {fs : Fs} (hw : WfFs fs) {a b : String × Entry}
    (ha : a ∈ fs) (hb : b ∈ fs) (hk : a.1 = b.1) : a = b := by
  induction fs with
  | nil => cases ha
  | cons kv rest ih =>
      have hw' : (rest.map Prod.fst).Nodup ∧ kv.1 ∉ rest.map Prod.fst := by
        have := hw
        unfold WfFs at this
        simp only [List.map_cons, List.nodup_cons] at this
        exact ⟨this.2, this.1⟩
      rcases List.mem_cons.1 ha with rfl | ha'
      · rcases List.mem_cons.1 hb with rfl | hb'
        · rfl
        · exact absurd (hk ▸ List.mem_map_of_mem Prod.fst hb') hw'.2
      · rcases List.mem_cons.1 hb with rfl | hb'
        · exact absurd (hk ▸ List.mem_map_of_mem Prod.fst ha') hw'.2
        · exact ih hw'.1 ha' hb'

theorem lookupFs_eq_none_iff {fs : Fs} {k : String} :
    lookupFs fs k = none ↔ ∀ kv ∈ fs, kv.1 ≠ k := by
  induction fs with
  | nil => simp [lookupFs]
  | cons kv rest ih =>
      unfold lookupFs
      by_cases h : kv.1 = k
      · simp [h]
      · simp [h, ih]

theorem lookupFs_cons (kv : String × Entry) (rest : Fs) (k : String) :
    lookupFs (kv :: rest) k = if kv.1 = k then some kv.2 else lookupFs rest k := rfl

theorem lookupFs_filter_preserve {fs : Fs} {k : String} (q : String × Entry → Bool)
    (hq : ∀ kv ∈ fs, kv.1 = k → q kv = true) :
    lookupFs (fs.filter q) k = lookupFs fs k := by
  induction fs with
  | nil => rfl
  | cons kv rest ih =>
      have ih' := ih (fun kv h1 h2 => hq kv (List.mem_cons_of_mem _ h1) h2)
      by_cases h : kv.1 = k
      · rw [List.filter_cons_of_pos (hq kv (List.mem_cons_self _ _) h)]
        simp [lookupFs_cons, h]
      · by_cases hquf : q kv = true
        · rw [List.filter_cons_of_pos hquf]
          simp [lookupFs_cons, h, ih']
        · rw [List.filter_cons_of_neg (by simpa using hquf)]
          simp [lookupFs_cons, h, ih']

theorem foldl_removeDupStep_fs (ds : List (String × Entry)) (st : St) :
    (ds.foldl (removeDupStep false) st).fs
      = ds.foldl (fun fs kv => eraseKeyFs fs kv.1) st.fs := by
  induction ds generalizing st with
  | nil => rfl
  | cons kv rest ih =>
      simp only [List.foldl_cons]
      rw [ih]
      rfl

theorem foldl_eraseKeyFs (ds : List (String × Entry)) (fs : Fs) :
    ds.foldl (fun fs kv => eraseKeyFs fs kv.1) fs
      = fs.filter (fun kv => ds.all (fun d => kv.1 != d.1)) := by
  induction ds generalizing fs with
  | nil => simp
  | cons d rest ih =>
      simp only [List.foldl_cons]
      rw [ih]
      unfold eraseKeyFs
      rw [List.filter_filter]
      refine List.filter_congr (fun kv _ => ?_)
      simp [Bool.and_comm]

theorem filter_all_not_dup {fs : Fs} (hw : WfFs fs) (p : String × Entry → Bool) :
    fs.filter (fun kv => (fs.filter p).all (fun d => kv.1 != d.1))
      = fs.filter (fun kv => !p kv) := by
  refine List.filter_congr (fun kv hkv => ?_)
  by_cases hp : p kv = true
  · have hmem : kv ∈ fs.filter p := List.mem_filter.2 ⟨hkv, hp⟩
    have : ¬ (fs.filter p).all (fun d => kv.1 != d.1) = true := by
      intro hall
      have := List.all_eq_true.1 hall kv hmem
      simp at this
    simp [hp, Bool.not_eq_true] at this ⊢
    simp [this]
  · have hall : (fs.filter p).all (fun d => kv.1 != d.1) = true := by
      refine List.all_eq_true.2 (fun d hd => ?_)
      rcases List.mem_filter.1 hd with ⟨hdmem, hdp⟩
      by_contra hne
      simp only [bne_iff_ne, ne_eq, Decidable.not_not] at hne
      have := wf_key_eq hw hkv hdmem hne
      rw [this] at hp
      exact hp hdp
    simp [hall, hp]

theorem checkPathExistsFs_fst (fs : Fs) (p : String) :
    (checkPathExistsFs fs p).1 = (lookupFs fs p).isSome := by
  unfold checkPathExistsFs
  rcases h : lookupFs fs p with - | e
  · simp
  · cases e <;> simp

theorem scan_exact {cwd tp sp : String} {st : St} (hw : WfFs st.fs)
    (hdir : lookupFs st.fs (goDir tp) = some .dir) :
    (checkForDuplicates cwd false tp sp st).fs
      = st.fs.filter (fun kv => !isDupEntry cwd (goDir tp) tp sp kv) := by
  simp only [checkForDuplicates, hdir]
  rw [foldl_removeDupStep_fs, foldl_eraseKeyFs, filter_all_not_dup hw]

theorem lookupFs_filter_not_dup_target {cwd tp sp : String} {fs : Fs} :
    lookupFs (fs.filter (fun kv => !isDupEntry cwd (goDir tp) tp sp kv)) tp
      = lookupFs fs tp := by
  refine lookupFs_filter_preserve _ (fun kv _ hk => ?_)
  unfold isDupEntry
  subst hk
  simp

theorem lookupFs_filter_dup_gone {cwd tp sp : String} {fs : Fs} (hw : WfFs fs)
    {k : String} {e : Entry} (hmem : (k, e) ∈ fs)
    (hdup : isDupEntry cwd (goDir tp) tp sp (k, e) = true) :
    lookupFs (fs.filter (fun kv => !isDupEntry cwd (goDir tp) tp sp kv)) k = none := by
  rw [lookupFs_eq_none_iff]
  intro kv hkv
  rcases List.mem_filter.1 hkv with ⟨hkvmem, hkvq⟩
  intro hk
  have : kv = (k, e) := wf_key_eq hw hkvmem hmem hk
  rw [this] at hkvq
  rw [hdup] at hkvq
  simp at hkvq

/-- C6: on a real (non-dry) run the duplicate scanner deletes exactly
those entries of the target's immediate parent directory that are not
the target itself, are symlinks, and resolve (relative destinations made
absolute against the parent directory) to the source path — in
particular the target is never deleted by the scanner; and after
reconciling a declaration whose target is one of two sibling symlinks
to the same source, the other sibling no longer exists. -/
theorem c6_duplicate_cleanup :
    (∀ (cwd tp sp : String) (st : St), WfFs st.fs →
      lookupFs st.fs (goDir tp) = some .dir →
      (checkForDuplicates cwd false tp sp st).fs
          = st.fs.filter (fun kv => !isDupEntry cwd (goDir tp) tp sp kv) ∧
      lookupFs (checkForDuplicates cwd false tp sp st).fs tp = lookupFs st.fs tp) ∧
    (∀ (env : Env) (force relink backup : Bool) (target source : String) (st : St)
       (k : String) (e : Entry) (d0 : String),
      env.dryRun = false → WfFs st.fs →
      (lookupFs st.fs (linkSourcePath env source)).isSome = true →
      lookupFs st.fs (goDir (linkTargetPath env target)) = some .dir →
      lookupFs st.fs (linkTargetPath env target) = some (.symlink (some d0)) →
      resolveDest env.cwd (goDir (linkTargetPath env target)) d0 = linkSourcePath env source →
      (k, e) ∈ st.fs →
      isDupEntry env.cwd (goDir (linkTargetPath env target)) (linkTargetPath env target)
        (linkSourcePath env source) (k, e) = true →
      lookupFs (createLink env force relink backup target source st).1.fs k = none) := by
  constructor
  · intro cwd tp sp st hw hdir
    refine ⟨scan_exact hw hdir, ?_⟩
    rw [scan_exact hw hdir]
    exact lookupFs_filter_not_dup_target
  · intro env force relink backup target source st k e d0 hdry hw hsrc hpdir htgt hres hkmem hdup
    have hfs2 : (checkForDuplicates env.cwd false (linkTargetPath env target)
        (linkSourcePath env source) st).fs
        = st.fs.filter (fun kv => !isDupEntry env.cwd (goDir (linkTargetPath env target))
            (linkTargetPath env target) (linkSourcePath env source) kv) :=
      scan_exact hw hpdir
    have hlt : lookupFs (checkForDuplicates env.cwd false (linkTargetPath env target)
        (linkSourcePath env source) st).fs (linkTargetPath env target)
        = some (.symlink (some d0)) := by
      rw [hfs2]
      exact lookupFs_filter_not_dup_target.trans htgt
    have hc1 : (checkPathExistsFs st.fs (linkSourcePath env source)).1 = true := by
      rw [checkPathExistsFs_fst, hsrc]
    have hc2 : checkPathExistsFs st.fs (goDir (linkTargetPath env target)) = (true, true) := by
      simp [checkPathExistsFs, hpdir]
    simp only [createLink, createLinkRest, hc1, hc2, hdry, hlt, hres, beq_self_eq_true,
      if_true, Bool.true_eq_false, if_false]
    rw [hfs2]
    exact lookupFs_filter_dup_gone hw hkmem hdup

/-- Witness for C6: a scan on a directory with one duplicate sibling
removes exactly it, and a full reconciliation of `~/t` removes the
sibling alias `/h/u`. -/
theorem c6_witness :
    (checkForDuplicates "/c" false "/h/t" "/s"
        ⟨[("/h", .dir), ("/h/t", .symlink (some "/s")), ("/h/u", .symlink (some "/s"))], 0, 0, 0⟩).fs
      = [("/h", .dir), ("/h/t", .symlink (some "/s")),
         ("/h/u", .symlink (some "/s"))].filter
          (fun kv => !isDupEntry "/c" (goDir "/h/t") "/h/t" "/s" kv) ∧
    lookupFs (createLink ⟨"/h", "/e", "/c", "/b", false⟩ false false false "~/t" "/s"
        ⟨[("/h", .dir), ("/s", .file "x"), ("/h/t", .symlink (some "/s")),
          ("/h/u", .symlink (some "/s"))], 0, 0, 0⟩).1.fs "/h/u" = none := by
  constructor
  · exact (c6_duplicate_cleanup.1 "/c" "/h/t" "/s" _ (by unfold WfFs; decide) (by decide)).1
  · exact c6_duplicate_cleanup.2 ⟨"/h", "/e", "/c", "/b", false⟩ false false false "~/t" "/s"
      _ "/h/u" (.symlink (some "/s")) "/s" rfl (by unfold WfFs; decide) (by decide) (by decide)
      (by decide) (by decide) (by decide) (by decide)

/-! ## Lemmas for reaching and analysing the target-inspection branch -/

theorem lookupFs_some_mem {fs : Fs} {k : String} {e : Entry} (h : lookupFs fs k = some e) :
    (k, e) ∈ fs := by
  induction fs with
  | nil => simp [lookupFs] at h
  | cons kv rest ih =>
      rw [lookupFs_cons] at h
      by_cases hk : kv.1 = k
      · rw [if_pos hk] at h
        have : kv = (k, e) := Prod.ext hk (by injection h)
        rw [← this]
        exact List.mem_cons_self _ _
      · rw [if_neg hk] at h
        exact List.mem_cons_of_mem _ (ih h)

theorem lookupFs_setFs_self (fs : Fs) (k : String) (e : Entry) :
    lookupFs (setFs fs k e) k = some e := by
  unfold setFs
  rw [lookupFs_cons]
  simp

theorem lookupFs_setFs_ne {k' k : String} (fs : Fs) (e : Entry) (h : k' ≠ k) :
    lookupFs (setFs fs k e) k' = lookupFs fs k' := by
  unfold setFs
  rw [lookupFs_cons, if_neg (fun hh => h hh.symm)]
  refine lookupFs_filter_preserve _ (fun kv _ hk => ?_)
  rw [hk]
  simp [h]

theorem foldl_removeDupStep_lookup (dry : Bool) (tp : String) (ds : List (String × Entry))
    (st : St) (h : ∀ d ∈ ds, d.1 ≠ tp) :
    lookupFs (ds.foldl (removeDupStep dry) st).fs tp = lookupFs st.fs tp := by
  induction ds generalizing st with
  | nil => rfl
  | cons d rest ih =>
      simp only [List.foldl_cons]
      rw [ih _ (fun d' hd' => h d' (List.mem_cons_of_mem _ hd'))]
      show lookupFs (execFs dry (fun fs => some (eraseKeyFs fs d.1)) st.fs).1 tp = _
      cases dry with
      | true => rfl
      | false =>
          show lookupFs (eraseKeyFs st.fs d.1) tp = _
          exact lookupFs_filter_preserve _
            (fun kv _ hk => by simp [hk]; exact fun hh => h d (List.mem_cons_self _ _) hh.symm)

theorem foldl_removeDupStep_counts (dry : Bool) (ds : List (String × Entry)) (st : St) :
    (ds.foldl (removeDupStep dry) st).successCount = st.successCount ∧
    (ds.foldl (removeDupStep dry) st).errorCount = st.errorCount := by
  induction ds generalizing st with
  | nil => exact ⟨rfl, rfl⟩
  | cons d rest ih =>
      simp only [List.foldl_cons]
      exact (ih _).imp (fun h => h.trans rfl) (fun h => h.trans rfl)

theorem isDupEntry_key_ne {cwd td tp sp : String} {kv : String × Entry}
    (h : isDupEntry cwd td tp sp kv = true) : kv.1 ≠ tp := by
  unfold isDupEntry at h
  simp only [Bool.and_eq_true, bne_iff_ne, ne_eq] at h
  exact h.1.1.1

theorem checkForDuplicates_lookup_target (cwd : String) (dry : Bool) (tp sp : String) (st : St) :
    lookupFs (checkForDuplicates cwd dry tp sp st).fs tp = lookupFs st.fs tp := by
  simp only [checkForDuplicates]
  split
  · refine foldl_removeDupStep_lookup _ _ _ _ (fun d hd => ?_)
    exact isDupEntry_key_ne (List.mem_filter.1 hd).2
  · rfl

theorem checkForDuplicates_counts (cwd : String) (dry : Bool) (tp sp : String) (st : St) :
    (checkForDuplicates cwd dry tp sp st).successCount = st.successCount ∧
    (checkForDuplicates cwd dry tp sp st).errorCount = st.errorCount := by
  simp only [checkForDuplicates]
  split
  · exact foldl_removeDupStep_counts _ _ _
  · exact ⟨rfl, rfl⟩

theorem checkForDuplicates_nodups {cwd tp sp : String} {st : St} (dry : Bool)
    (h : ∀ kv ∈ st.fs, isDupEntry cwd (goDir tp) tp sp kv = false) :
    checkForDuplicates cwd dry tp sp st = st := by
  simp only [checkForDuplicates]
  split
  · rw [List.filter_eq_nil_iff.2 (fun kv hkv => by simp [h kv hkv])]
    rfl
  · rfl

theorem createLink_reaches_rest (env : Env) (force relink backup : Bool)
    (target source : String) (st : St)
    (hsrc : (lookupFs st.fs (linkSourcePath env source)).isSome = true)
    (htgt : (lookupFs st.fs (linkTargetPath env target)).isSome = true)
    (hpar : lookupFs st.fs (goDir (linkTargetPath env target)) = some .dir ∨
        lookupFs st.fs (goDir (linkTargetPath env target)) = none) :
    ∃ st1 : St,
      createLink env force relink backup target source st
        = createLinkRest env force relink backup (linkTargetPath env target)
            (linkSourcePath env source) st1 ∧
      lookupFs st1.fs (linkTargetPath env target)
        = lookupFs st.fs (linkTargetPath env target) ∧
      st1.successCount = st.successCount ∧ st1.errorCount = st.errorCount := by
  have hc1 : (checkPathExistsFs st.fs (linkSourcePath env source)).1 = true := by
    rw [checkPathExistsFs_fst, hsrc]
  rcases hpar with hpar | hpar
  · have hc2 : checkPathExistsFs st.fs (goDir (linkTargetPath env target)) = (true, true) := by
      simp [checkPathExistsFs, hpar]
    refine ⟨st, ?_, rfl, rfl, rfl⟩
    simp only [createLink, hc1, hc2, Bool.true_eq_false, if_false]
  · have hc2 : checkPathExistsFs st.fs (goDir (linkTargetPath env target)) = (false, false) := by
      simp [checkPathExistsFs, hpar]
    refine ⟨{ st with fs := (execFs env.dryRun
        (fun fs => some (mkdirAllFs fs (goDir (linkTargetPath env target)))) st.fs).1 },
      ?_, ?_, rfl, rfl⟩
    · simp only [createLink, hc1, hc2, Bool.true_eq_false, if_false, if_true]
    · cases hdry : env.dryRun with
      | true => simp [execFs]
      | false =>
          show lookupFs (mkdirAllFs st.fs (goDir (linkTargetPath env target))) _ = _
          unfold mkdirAllFs
          rw [hpar]
          refine lookupFs_setFs_ne _ _ (fun he => ?_)
          rw [he, hpar] at htgt
          simp at htgt

theorem processLinks_loop_length (env : Env) (force relink backup : Bool)
    (decls : List (String × String)) (st : St) (acc : List Outcome) :
    ((decls.foldl
      (fun acc ts =>
        let r := createLink env force relink backup ts.1 ts.2 acc.1
        (r.1, acc.2 ++ [r.2]))
      (st, acc)).2).length = acc.length + decls.length := by
  induction decls generalizing st acc with
  | nil => simp
  | cons d rest ih =>
      simp only [List.foldl_cons]
      rw [ih]
      simp
      omega

/-- C1: idempotence of reconciliation under `relink=true` — on a state
in which the target is a symlink whose resolved destination equals the
resolved source (the post-state of a successful first application), the
source still exists, the parent is a directory and no duplicate alias
remains (as after a first application with no external change), a second
application of `createLink` takes the already-correct branch: it
returns the state unchanged except for the success counter and reports
`AlreadyCorrect`, performing no removal and no symlink creation. -/
theorem c1_idempotent_second_run :
    ∀ (env : Env) (force backup : Bool) (target source : String) (st : St) (cur : String),
      lookupFs st.fs (linkTargetPath env target) = some (.symlink (some cur)) →
      resolveDest env.cwd (goDir (linkTargetPath env target)) cur = linkSourcePath env source →
      (lookupFs st.fs (linkSourcePath env source)).isSome = true →
      lookupFs st.fs (goDir (linkTargetPath env target)) = some .dir →
      (∀ kv ∈ st.fs, isDupEntry env.cwd (goDir (linkTargetPath env target))
          (linkTargetPath env target) (linkSourcePath env source) kv = false) →
      createLink env force true backup target source st
        = ({ st with successCount := st.successCount + 1 }, .alreadyCorrect) := by
  intro env force backup target source st cur htgt hres hsrc hpdir hnodup
  have hc1 : (checkPathExistsFs st.fs (linkSourcePath env source)).1 = true := by
    rw [checkPathExistsFs_fst, hsrc]
  have hc2 : checkPathExistsFs st.fs (goDir (linkTargetPath env target)) = (true, true) := by
    simp [checkPathExistsFs, hpdir]
  have hscan : checkForDuplicates env.cwd env.dryRun (linkTargetPath env target)
      (linkSourcePath env source) st = st := checkForDuplicates_nodups _ hnodup
  simp only [createLink, createLinkRest, hc1, hc2, Bool.true_eq_false, if_false, hscan,
    htgt, hres, beq_self_eq_true, if_true]

/-- Witness for C1: reconciling an already-correct link counts one
success and mutates nothing. -/
theorem c1_witness :
    createLink ⟨"/h", "/e", "/c", "/b", false⟩ true true true "~/t" "/s"
        ⟨[("/h", .dir), ("/s", .file "x"), ("/h/t", .symlink (some "/s"))], 0, 0, 0⟩
      = (⟨[("/h", .dir), ("/s", .file "x"), ("/h/t", .symlink (some "/s"))], 1, 0, 0⟩,
         .alreadyCorrect) :=
  c1_idempotent_second_run ⟨"/h", "/e", "/c", "/b", false⟩ true true "~/t" "/s"
    ⟨[("/h", .dir), ("/s", .file "x"), ("/h/t", .symlink (some "/s"))], 0, 0, 0⟩ "/s"
    (by decide) (by decide) (by decide) (by decide) (by decide)

/-- C2: no-force safety — when the target exists and is not a symlink
and `force=false` (and the declaration reaches the target check: the
source exists and the parent is a directory or absent), `createLink`
reports the declaration as skipped because the path exists and is not a
symlink, and leaves the target's entry (including its content)
unchanged, counting no success and no error. -/
theorem c2_noforce_safety :
    ∀ (env : Env) (relink backup : Bool) (target source : String) (st : St) (e : Entry),
      lookupFs st.fs (linkTargetPath env target) = some e →
      (∀ d, e ≠ .symlink d) →
      (lookupFs st.fs (linkSourcePath env source)).isSome = true →
      (lookupFs st.fs (goDir (linkTargetPath env target)) = some .dir ∨
        lookupFs st.fs (goDir (linkTargetPath env target)) = none) →
      (createLink env false relink backup target source st).2 = .skippedNotSymlinkNoForce ∧
      lookupFs (createLink env false relink backup target source st).1.fs
          (linkTargetPath env target) = some e ∧
      (createLink env false relink backup target source st).1.successCount = st.successCount ∧
      (createLink env false relink backup target source st).1.errorCount = st.errorCount := by
  intro env relink backup target source st e htgt hns hsrc hpar
  obtain ⟨st1, heq, hlook, hsc, hec⟩ :=
    createLink_reaches_rest env false relink backup target source st hsrc
      (by rw [htgt]; rfl) hpar
  rw [heq]
  have hl2 : lookupFs (checkForDuplicates env.cwd env.dryRun (linkTargetPath env target)
      (linkSourcePath env source) st1).fs (linkTargetPath env target) = some e := by
    rw [checkForDuplicates_lookup_target, hlook, htgt]
  have hcnt := checkForDuplicates_counts env.cwd env.dryRun (linkTargetPath env target)
    (linkSourcePath env source) st1
  cases e with
  | symlink d => exact absurd rfl (hns d)
  | dir =>
      simp only [createLinkRest, hl2, forcePath, Bool.false_eq_true, if_false]
      exact ⟨trivial, hl2, hcnt.1.trans hsc, hcnt.2.trans hec⟩
  | file c =>
      simp only [createLinkRest, hl2, forcePath, Bool.false_eq_true, if_false]
      exact ⟨trivial, hl2, hcnt.1.trans hsc, hcnt.2.trans hec⟩

/-- Witness for C2: a regular file at the target survives a no-force
run untouched. -/
theorem c2_witness :
    (createLink ⟨"/h", "/e", "/c", "/b", false⟩ false false false "~/t" "/s"
        ⟨[("/h", .dir), ("/s", .file "x"), ("/h/t", .file "data")], 0, 0, 0⟩).2
      = .skippedNotSymlinkNoForce ∧
    lookupFs (createLink ⟨"/h", "/e", "/c", "/b", false⟩ false false false "~/t" "/s"
        ⟨[("/h", .dir), ("/s", .file "x"), ("/h/t", .file "data")], 0, 0, 0⟩).1.fs
        (linkTargetPath ⟨"/h", "/e", "/c", "/b", false⟩ "~/t") = some (.file "data") ∧
    (createLink ⟨"/h", "/e", "/c", "/b", false⟩ false false false "~/t" "/s"
        ⟨[("/h", .dir), ("/s", .file "x"), ("/h/t", .file "data")], 0, 0, 0⟩).1.successCount = 0 ∧
    (createLink ⟨"/h", "/e", "/c", "/b", false⟩ false false false "~/t" "/s"
        ⟨[("/h", .dir), ("/s", .file "x"), ("/h/t", .file "data")], 0, 0, 0⟩).1.errorCount = 0 :=
  c2_noforce_safety ⟨"/h", "/e", "/c", "/b", false⟩ false false "~/t" "/s"
    ⟨[("/h", .dir), ("/s", .file "x"), ("/h/t", .file "data")], 0, 0, 0⟩ (.file "data")
    (by decide) (fun d h => by cases h) (by decide) (Or.inl (by decide))

/-- C10: when the target is a symlink whose destination cannot be read,
`createLink` neither removes the target nor applies the force/backup
policy: it falls through to the symlink-creation step, which fails at
the OS level because the path still exists; the failure is counted as
one error, the target entry is untouched, and the link loop still
produces one outcome per declaration (no abort). -/
theorem c10_unreadable_symlink_fallthrough :
    ∀ (env : Env) (force relink backup : Bool) (target source : String) (st : St),
      env.dryRun = false →
      lookupFs st.fs (linkTargetPath env target) = some (.symlink none) →
      (lookupFs st.fs (linkSourcePath env source)).isSome = true →
      (lookupFs st.fs (goDir (linkTargetPath env target)) = some .dir ∨
        lookupFs st.fs (goDir (linkTargetPath env target)) = none) →
      (createLink env force relink backup target source st).2 = .createFailed ∧
      lookupFs (createLink env force relink backup target source st).1.fs
          (linkTargetPath env target) = some (.symlink none) ∧
      (createLink env force relink backup target source st).1.errorCount = st.errorCount + 1 ∧
      (createLink env force relink backup target source st).1.successCount = st.successCount ∧
      (∀ (decls : List (String × String)) (st2 : St),
        ((processLinks env force relink backup decls st2).2).length = decls.length) := by
  intro env force relink backup target source st hdry htgt hsrc hpar
  obtain ⟨st1, heq, hlook, hsc, hec⟩ :=
    createLink_reaches_rest env force relink backup target source st hsrc
      (by rw [htgt]; rfl) hpar
  rw [heq]
  have hl2 : lookupFs (checkForDuplicates env.cwd env.dryRun (linkTargetPath env target)
      (linkSourcePath env source) st1).fs (linkTargetPath env target)
      = some (.symlink none) := by
    rw [checkForDuplicates_lookup_target, hlook, htgt]
  have hcnt := checkForDuplicates_counts env.cwd env.dryRun (linkTargetPath env target)
    (linkSourcePath env source) st1
  have hop : symlinkOp (linkSourcePath env source) (linkTargetPath env target)
      (checkForDuplicates env.cwd env.dryRun (linkTargetPath env target)
        (linkSourcePath env source) st1).fs = none := by
    unfold symlinkOp
    rw [hl2]
  rw [hdry] at hl2 hcnt hop
  simp only [createLinkRest, hdry, hl2, createLinkFinish, execFs, hop, Bool.false_eq_true,
    if_false, if_true]
  refine ⟨trivial, trivial, ?_, hcnt.1.trans hsc, fun decls st2 => ?_⟩
  · show (checkForDuplicates _ _ _ _ st1).errorCount + 1 = st.errorCount + 1
    rw [hcnt.2, hec]
  · unfold processLinks
    rw [processLinks_loop_length]
    simp

/-- Witness for C10: a declaration whose target is an unreadable
symlink fails with one error, leaves the target in place, and a
two-declaration loop still yields two outcomes. -/
theorem c10_witness :
    (createLink ⟨"/h", "/e", "/c", "/b", false⟩ true true true "~/t" "/s"
        ⟨[("/h", .dir), ("/s", .file "x"), ("/h/t", .symlink none)], 0, 0, 0⟩).2
      = .createFailed ∧
    lookupFs (createLink ⟨"/h", "/e", "/c", "/b", false⟩ true true true "~/t" "/s"
        ⟨[("/h", .dir), ("/s", .file "x"), ("/h/t", .symlink none)], 0, 0, 0⟩).1.fs
        (linkTargetPath ⟨"/h", "/e", "/c", "/b", false⟩ "~/t") = some (.symlink none) ∧
    (createLink ⟨"/h", "/e", "/c", "/b", false⟩ true true true "~/t" "/s"
        ⟨[("/h", .dir), ("/s", .file "x"), ("/h/t", .symlink none)], 0, 0, 0⟩).1.errorCount = 1 ∧
    ((processLinks ⟨"/h", "/e", "/c", "/b", false⟩ true true true [("~/t", "/s"), ("~/u", "/s")]
        ⟨[("/h", .dir), ("/s", .file "x"), ("/h/t", .symlink none)], 0, 0, 0⟩).2).length = 2 := by
  obtain ⟨h1, h2, h3, h4, h5⟩ :=
    c10_unreadable_symlink_fallthrough ⟨"/h", "/e", "/c", "/b", false⟩ true true true "~/t" "/s"
      ⟨[("/h", .dir), ("/s", .file "x"), ("/h/t", .symlink none)], 0, 0, 0⟩ rfl
      (by decide) (by decide) (Or.inl (by decide))
  exact ⟨h1, h2, h3, h5 _ _⟩

/-! ## Copy lemmas for `restoreBackup` -/

theorem lookupFs_isSome_setFs (fs : Fs) (k : String) (e : Entry) (k' : String)
    (h : (lookupFs fs k').isSome = true) : (lookupFs (setFs fs k e) k').isSome = true := by
  by_cases hk : k' = k
  · subst hk
    rw [lookupFs_setFs_self]
    rfl
  · rw [lookupFs_setFs_ne _ _ hk]
    exact h

theorem foldl_setFs_isSome (f : String → String) (sub : List (String × Entry)) (fs : Fs)
    (k : String) (h : (lookupFs fs k).isSome = true) :
    (lookupFs (sub.foldl (fun acc kv => setFs acc (f kv.1) kv.2) fs) k).isSome = true := by
  induction sub generalizing fs with
  | nil => exact h
  | cons kv rest ih =>
      simp only [List.foldl_cons]
      exact ih _ (lookupFs_isSome_setFs _ _ _ _ h)

theorem foldl_setFs_lookup_write (f : String → String) (sub : List (String × Entry)) (fs : Fs)
    (dst : String) (e : Entry)
    (hall : ∀ kv ∈ sub, f kv.1 = dst → kv.2 = e)
    (hsome : (∃ kv ∈ sub, f kv.1 = dst) ∨ lookupFs fs dst = some e) :
    lookupFs (sub.foldl (fun acc kv => setFs acc (f kv.1) kv.2) fs) dst = some e := by
  induction sub generalizing fs with
  | nil =>
      rcases hsome with ⟨kv, hkv, -⟩ | h
      · cases hkv
      · exact h
  | cons kv rest ih =>
      simp only [List.foldl_cons]
      by_cases hf : f kv.1 = dst
      · refine ih _ (fun kv' h1 h2 => hall kv' (List.mem_cons_of_mem _ h1) h2) (Or.inr ?_)
        rw [hf, hall kv (List.mem_cons_self _ _) hf]
        exact lookupFs_setFs_self _ _ _
      · refine ih _ (fun kv' h1 h2 => hall kv' (List.mem_cons_of_mem _ h1) h2) ?_
        rcases hsome with ⟨kv', hkv', hf'⟩ | h
        · rcases List.mem_cons.1 hkv' with rfl | hkv'
          · exact absurd hf' hf
          · exact Or.inl ⟨kv', hkv', hf'⟩
        · refine Or.inr ?_
          rw [lookupFs_setFs_ne _ _ (fun hh => hf hh.symm)]
          exact h

theorem startsWithChars_eq_append {p l : List Char} (h : startsWithChars p l = true) :
    ∃ r, l = p ++ r := by
  induction p generalizing l with
  | nil => exact ⟨l, rfl⟩
  | cons a as ih =>
      cases l with
      | nil => simp [startsWithChars] at h
      | cons b bs =>
          unfold startsWithChars at h
          rw [Bool.and_eq_true] at h
          obtain ⟨h1, h2⟩ := h
          obtain ⟨r, hr⟩ := ih h2
          refine ⟨r, ?_⟩
          have : a = b := by simpa using h1
          rw [hr, this]
          rfl

theorem mapTreeKey_self (src dst : String) : mapTreeKey src dst src = dst := by
  unfold mapTreeKey
  rw [List.drop_length, List.append_nil]

theorem mapTreeKey_eq_dst {src dst k : String}
    (hcond : (k == src || startsWithChars (src.data ++ ['/']) k.data) = true)
    (hf : mapTreeKey src dst k = dst) : k = src := by
  rw [Bool.or_eq_true] at hcond
  rcases hcond with h | h
  · exact eq_of_beq h
  · obtain ⟨r, hr⟩ := startsWithChars_eq_append h
    exfalso
    unfold mapTreeKey at hf
    have hd : dst.data ++ k.data.drop src.data.length = dst.data := congrArg String.data hf
    rw [hr] at hd
    rw [List.append_assoc, List.drop_left] at hd
    have := congrArg List.length hd
    simp at this

theorem copyTree_lookup_dst {fs : Fs} (hw : WfFs fs) {src dst : String} {e : Entry}
    (h : lookupFs fs src = some e) :
    lookupFs (copyTreeFs src dst fs) dst = some e := by
  unfold copyTreeFs
  refine foldl_setFs_lookup_write _ _ _ _ _ (fun kv hkv hf => ?_) ?_
  · rcases List.mem_filter.1 hkv with ⟨hmem, hcond⟩
    have hkey : kv.1 = src := mapTreeKey_eq_dst hcond hf
    have : kv = (src, e) := wf_key_eq hw hmem (lookupFs_some_mem h) hkey
    rw [this]
  · exact Or.inl ⟨(src, e), List.mem_filter.2 ⟨lookupFs_some_mem h, by simp⟩,
      mapTreeKey_self _ _⟩

theorem copyTree_isSome {fs : Fs} {k : String} (src dst : String)
    (h : (lookupFs fs k).isSome = true) :
    (lookupFs (copyTreeFs src dst fs) k).isSome = true :=
  foldl_setFs_isSome _ _ _ _ h

/-- C8: `restoreBackup` is best-effort and non-destructive of the
backup — when no backup exists at the computed backup path it returns
the state entirely unchanged (no mutation, no error, no warning); when
a backup entry exists (on a real run), the backup content is copied
back onto the target (recursively through the tree copy when the backup
is a directory) and the backup path still holds an entry afterwards. -/
theorem c8_restore_best_effort :
    ∀ (env : Env) (targetPath : String) (st : St),
      (lookupFs st.fs (getBackupPath env.backupDir targetPath) = none →
        restoreBackup env targetPath st = st) ∧
      (∀ e : Entry, WfFs st.fs → env.dryRun = false →
        lookupFs st.fs (getBackupPath env.backupDir targetPath) = some e →
        lookupFs (restoreBackup env targetPath st).fs targetPath = some e ∧
        (lookupFs (restoreBackup env targetPath st).fs
            (getBackupPath env.backupDir targetPath)).isSome = true) := by
  intro env targetPath st
  constructor
  · intro h
    simp [restoreBackup, checkPathExistsFs, h]
  · intro e hw hdry hsome
    cases e with
    | dir =>
        have hcopy : copyDirOp (getBackupPath env.backupDir targetPath) targetPath st.fs
            = some (copyTreeFs (getBackupPath env.backupDir targetPath) targetPath st.fs) := by
          unfold copyDirOp
          rw [hsome]
        simp only [restoreBackup, checkPathExistsFs, hsome, hdry, execFs, hcopy,
          Bool.true_eq_false, if_false, if_true]
        exact ⟨copyTree_lookup_dst hw hsome, copyTree_isSome _ _ (by rw [hsome]; rfl)⟩
    | file c =>
        have hcopy : copyFileOp (getBackupPath env.backupDir targetPath) targetPath st.fs
            = some (setFs st.fs targetPath (.file c)) := by
          unfold copyFileOp
          rw [hsome]
        simp only [restoreBackup, checkPathExistsFs, hsome, hdry, execFs, hcopy,
          Bool.true_eq_false, if_false, if_true]
        exact ⟨lookupFs_setFs_self _ _ _,
          lookupFs_isSome_setFs _ _ _ _ (by rw [hsome]; rfl)⟩
    | symlink d =>
        have hcopy : copyFileOp (getBackupPath env.backupDir targetPath) targetPath st.fs
            = some (setFs st.fs targetPath (.symlink d)) := by
          unfold copyFileOp
          rw [hsome]
        simp only [restoreBackup, checkPathExistsFs, hsome, hdry, execFs, hcopy,
          Bool.true_eq_false, if_false, if_true]
        exact ⟨lookupFs_setFs_self _ _ _,
          lookupFs_isSome_setFs _ _ _ _ (by rw [hsome]; rfl)⟩

/-- Witness for C8: restoring with no backup fixes nothing and counts
nothing; restoring an existing file backup re-creates the target and
leaves the backup in place. -/
theorem c8_witness :
    restoreBackup ⟨"/h", "/e", "/c", "/b", false⟩ "/t" ⟨[], 0, 0, 0⟩ = ⟨[], 0, 0, 0⟩ ∧
    lookupFs (restoreBackup ⟨"/h", "/e", "/c", "/b", false⟩ "/t"
        ⟨[(getBackupPath "/b" "/t", .file "x")], 0, 0, 0⟩).fs "/t" = some (.file "x") ∧
    (lookupFs (restoreBackup ⟨"/h", "/e", "/c", "/b", false⟩ "/t"
        ⟨[(getBackupPath "/b" "/t", .file "x")], 0, 0, 0⟩).fs
        (getBackupPath "/b" "/t")).isSome = true := by
  have h2 := (c8_restore_best_effort ⟨"/h", "/e", "/c", "/b", false⟩ "/t"
      ⟨[(getBackupPath "/b" "/t", .file "x")], 0, 0, 0⟩).2 (.file "x")
    (by unfold WfFs; simp) rfl (by rw [lookupFs_cons]; simp)
  exact ⟨(c8_restore_best_effort ⟨"/h", "/e", "/c", "/b", false⟩ "/t" ⟨[], 0, 0, 0⟩).1 rfl,
    h2.1, h2.2⟩

/-! ## Structure of `getBackupPath` (C7) -/

theorem strDataInj {a b : String} (h : a.data = b.data) : a = b := by
  cases a with
  | mk d1 =>
      cases b with
      | mk d2 => exact congrArg String.mk h

theorem strMkNeEmpty (c : Char) (cs : List Char) : (⟨c :: cs⟩ : String) ≠ "" := by
  intro h
  simpa using congrArg String.data h

theorem splitGo_nil (cur : List Char) : splitGo cur [] = [cur.reverse] := rfl

theorem splitGo_cons (cur : List Char) (c : Char) (cs : List Char) :
    splitGo cur (c :: cs)
      = if c = '/' then cur.reverse :: splitGo [] cs else splitGo (c :: cur) cs := rfl

theorem splitGo_no_slash : ∀ (l cur : List Char), '/' ∉ l → splitGo cur l = [cur.reverse ++ l] := by
  intro l
  induction l with
  | nil => intro cur _; simp [splitGo]
  | cons c cs ih =>
      intro cur h
      have hc : c ≠ '/' := fun hc => h (hc ▸ List.mem_cons_self _ _)
      have hcs : '/' ∉ cs := fun hm => h (List.mem_cons_of_mem _ hm)
      rw [splitGo_cons, if_neg hc, ih _ hcs]
      simp

theorem splitGo_append : ∀ (xs cur ys : List Char),
    splitGo cur (xs ++ '/' :: ys) = splitGo cur xs ++ splitGo [] ys := by
  intro xs
  induction xs with
  | nil =>
      intro cur ys
      show splitGo cur ('/' :: ys) = splitGo cur [] ++ splitGo [] ys
      rw [splitGo_cons, if_pos rfl, splitGo_nil]
      rfl
  | cons c cs ih =>
      intro cur ys
      by_cases hc : c = '/'
      · subst hc
        show splitGo cur ('/' :: (cs ++ '/' :: ys)) = splitGo cur ('/' :: cs) ++ splitGo [] ys
        rw [splitGo_cons, if_pos rfl, splitGo_cons, if_pos rfl, ih]
        rfl
      · show splitGo cur (c :: (cs ++ '/' :: ys)) = splitGo cur (c :: cs) ++ splitGo [] ys
        rw [splitGo_cons, if_neg hc, splitGo_cons, if_neg hc, ih]

theorem takeWhile_no_slash : ∀ l : List Char, '/' ∉ l →
    l.takeWhile (fun c => c != '/') = l := by
  intro l
  induction l with
  | nil => intro _; rfl
  | cons c cs ih =>
      intro h
      have hc : c ≠ '/' := fun hc => h (hc ▸ List.mem_cons_self _ _)
      rw [List.takeWhile_cons, if_pos (by simp [hc])]
      rw [ih (fun hm => h (List.mem_cons_of_mem _ hm))]

theorem takeWhile_until_slash (A : List Char) : ∀ l : List Char, '/' ∉ l →
    (l ++ '/' :: A).takeWhile (fun c => c != '/') = l := by
  intro l
  induction l with
  | nil => intro _; simp [List.takeWhile_cons]
  | cons c cs ih =>
      intro h
      have hc : c ≠ '/' := fun hc => h (hc ▸ List.mem_cons_self _ _)
      rw [List.cons_append, List.takeWhile_cons, if_pos (by simp [hc])]
      rw [ih (fun hm => h (List.mem_cons_of_mem _ hm))]

theorem lastPart_concat (A n : List Char) (hn : '/' ∉ n) :
    lastPartAfterSlash ⟨A ++ '/' :: n⟩ = n := by
  unfold lastPartAfterSlash
  show ((A ++ '/' :: n).reverse.takeWhile (fun c => c != '/')).reverse = n
  rw [List.reverse_append, List.reverse_cons, List.append_assoc, List.singleton_append]
  rw [takeWhile_until_slash _ _ (by simpa using hn)]
  exact List.reverse_reverse n

theorem lastPart_plain (n : List Char) (hn : '/' ∉ n) : lastPartAfterSlash ⟨n⟩ = n := by
  unfold lastPartAfterSlash
  show (n.reverse.takeWhile (fun c => c != '/')).reverse = n
  rw [takeWhile_no_slash _ (by simpa using hn)]
  exact List.reverse_reverse n

theorem cleanParts_concat_normal (a : Bool) (ps : List (List Char)) (n : List Char)
    (h1 : n ≠ []) (h2 : n ≠ ['.']) (h3 : n ≠ ['.', '.']) :
    cleanParts a (ps ++ [n]) = cleanParts a ps ++ [n] := by
  unfold cleanParts
  rw [List.foldl_append]
  show (cleanStep a (ps.foldl (cleanStep a) []) n).reverse = _
  unfold cleanStep
  rw [if_neg (by simp [h1, h2]), if_neg h3]
  simp

theorem cleanParts_concat_empty_normal (a : Bool) (ps : List (List Char)) (n : List Char)
    (h1 : n ≠ []) (h2 : n ≠ ['.']) (h3 : n ≠ ['.', '.']) :
    cleanParts a (ps ++ [[], n]) = cleanParts a ps ++ [n] := by
  unfold cleanParts
  rw [List.foldl_append]
  show (List.foldl (cleanStep a) (ps.foldl (cleanStep a) []) [[], n]).reverse = _
  have hskip : cleanStep a (ps.foldl (cleanStep a) []) [] = ps.foldl (cleanStep a) [] := by
    unfold cleanStep
    rw [if_pos (Or.inl rfl)]
  show (cleanStep a (cleanStep a (ps.foldl (cleanStep a) []) []) n).reverse = _
  rw [hskip]
  unfold cleanStep
  rw [if_neg (by simp [h1, h2]), if_neg h3]
  simp

theorem joinParts_cons2 (p q : List Char) (ps : List (List Char)) :
    joinParts (p :: q :: ps) = p ++ '/' :: joinParts (q :: ps) := rfl

theorem joinParts_concat : ∀ (xs : List (List Char)) (n : List Char), xs ≠ [] →
    joinParts (xs ++ [n]) = joinParts xs ++ '/' :: n := by
  intro xs
  induction xs with
  | nil => intro n h; exact absurd rfl h
  | cons p ps ih =>
      intro n _
      cases ps with
      | nil => rfl
      | cons q qs =>
          have hin : joinParts (q :: (qs ++ [n])) = joinParts (q :: qs) ++ '/' :: n :=
            ih n (by simp)
          show p ++ '/' :: joinParts (q :: (qs ++ [n]))
              = (p ++ '/' :: joinParts (q :: qs)) ++ '/' :: n
          rw [hin]
          simp

theorem toBytesBE_length : ∀ k x : Nat, (toBytesBE k x).length = k := by
  intro k
  induction k with
  | zero => intro x; rfl
  | succ n ih => intro x; simp [toBytesBE, ih]

theorem sha256_length (msg : List Nat) : (sha256 msg).length = 32 := by
  unfold sha256
  simp [toBytesBE_length]

theorem hexEncode_length (bs : List Nat) : (hexEncode bs).length = 2 * bs.length := by
  induction bs with
  | nil => rfl
  | cons b rest ih =>
      unfold hexEncode at ih ⊢
      simp only [List.flatMap_cons, List.length_append, ih]
      simp
      omega

theorem shortHash_length (t : String) : (shortHashChars t).length = 8 := by
  unfold shortHashChars
  rw [List.length_take, hexEncode_length, sha256_length]
  decide

theorem hexDigit_ne_slash (n : Nat) : hexDigit n ≠ '/' := by
  unfold hexDigit
  rcases Nat.lt_or_ge n 16 with h | h
  · interval_cases n <;> decide
  · rw [List.getD_eq_default _ _ (le_trans (by decide) h)]
    decide

theorem hexEncode_no_slash (bs : List Nat) : '/' ∉ hexEncode bs := by
  induction bs with
  | nil => simp [hexEncode]
  | cons b rest ih =>
      intro hmem
      unfold hexEncode at hmem
      rw [List.flatMap_cons] at hmem
      rcases List.mem_append.1 hmem with h | h
      · rcases List.mem_cons.1 h with h | h
        · exact hexDigit_ne_slash _ h.symm
        · rcases List.mem_cons.1 h with h | h
          · exact hexDigit_ne_slash _ h.symm
          · cases h
      · exact ih h

theorem shortHash_no_slash (t : String) : '/' ∉ shortHashChars t :=
  fun h => hexEncode_no_slash _ (List.take_subset _ _ h)

theorem dropWhile_head_false (p : Char → Bool) :
    ∀ (l : List Char) (c : Char) (cs : List Char), l.dropWhile p = c :: cs → p c = false := by
  intro l
  induction l with
  | nil => intro c cs h; cases h
  | cons a as ih =>
      intro c cs h
      rw [List.dropWhile_cons] at h
      by_cases hp : p a = true
      · rw [if_pos hp] at h
        exact ih _ _ h
      · rw [if_neg hp] at h
        injection h with h1 _
        rw [← h1]
        exact Bool.eq_false_iff.2 hp

theorem mem_takeWhile_pred (p : Char → Bool) :
    ∀ (l : List Char) (a : Char), a ∈ l.takeWhile p → p a = true := by
  intro l
  induction l with
  | nil => intro a h; cases h
  | cons c cs ih =>
      intro a h
      rw [List.takeWhile_cons] at h
      by_cases hp : p c = true
      · rw [if_pos hp] at h
        rcases List.mem_cons.1 h with rfl | h
        · exact hp
        · exact ih _ h
      · rw [if_neg hp] at h
        cases h

theorem goBase_cases (p : String) :
    goBase p = "/" ∨ ((goBase p).data ≠ [] ∧ '/' ∉ (goBase p).data) := by
  by_cases hp : p = ""
  · right
    rw [hp]
    refine ⟨by decide, by decide⟩
  · by_cases hr : p.data.reverse.dropWhile (fun c => c == '/') = []
    · left
      simp [goBase, hp, hr]
    · right
      obtain ⟨c, cs, hc⟩ := List.exists_cons_of_ne_nil hr
      have hhead : (c == '/') = false := dropWhile_head_false (fun c => c == '/') _ _ _ hc
      have hcne : c ≠ '/' := by simpa using hhead
      have hdata : (goBase p).data
          = ((p.data.reverse.dropWhile (fun c => c == '/')).takeWhile
              (fun c => c != '/')).reverse := by
        simp [goBase, hp, hr]
      constructor
      · rw [hdata, hc, List.takeWhile_cons, if_pos (by simp [hcne])]
        simp
      · rw [hdata]
        intro hmem
        have := mem_takeWhile_pred _ _ _ (List.mem_reverse.1 hmem)
        simp at this

theorem strMkNe (d : List Char) (h : d ≠ []) : (⟨d⟩ : String) ≠ "" :=
  fun hh => h (by simpa using congrArg String.data hh)

theorem lastPart_build_abs (Q : List (List Char)) (nm : List Char) (hnm : '/' ∉ nm) :
    lastPartAfterSlash ⟨'/' :: joinParts (Q ++ [nm])⟩ = nm := by
  cases Q with
  | nil => exact lastPart_concat [] nm hnm
  | cons q qs =>
      rw [joinParts_concat _ _ (by simp)]
      exact lastPart_concat ('/' :: joinParts (q :: qs)) nm hnm

theorem lastPart_build_rel (Q : List (List Char)) (nm : List Char) (hnm : '/' ∉ nm) :
    lastPartAfterSlash ⟨joinParts (Q ++ [nm])⟩ = nm := by
  cases Q with
  | nil => exact lastPart_plain nm hnm
  | cons q qs =>
      rw [joinParts_concat _ _ (by simp)]
      exact lastPart_concat (joinParts (q :: qs)) nm hnm

theorem goClean_lastPart (d : List Char) (hd : d ≠ []) (Q : List (List Char))
    (nm : List Char) (hnm : '/' ∉ nm)
    (hparts : cleanParts (isAbsChars d) (splitSlash d) = Q ++ [nm]) :
    lastPartAfterSlash (goClean ⟨d⟩) = nm := by
  unfold goClean
  rw [if_neg (strMkNe d hd)]
  cases habs : isAbsChars d with
  | true =>
      rw [habs] at hparts
      simp only [hparts, if_true]
      exact lastPart_build_abs Q nm hnm
  | false =>
      rw [habs] at hparts
      simp only [hparts, Bool.false_eq_true, if_false]
      rw [if_neg (by simp)]
      exact lastPart_build_rel Q nm hnm

theorem goJoin_empty_left {b : String} (hb : b ≠ "") : goJoin "" b = goClean b := by
  unfold goJoin
  rw [if_pos rfl, if_neg hb]

theorem goJoin_both {a b : String} (ha : a ≠ "") (hb : b ≠ "") :
    goJoin a b = goClean ⟨a.data ++ '/' :: b.data⟩ := by
  unfold goJoin
  rw [if_neg ha, if_neg hb]

theorem hashPart_no_slash (t : String) : '/' ∉ '_' :: shortHashChars t := by
  intro h
  rcases List.mem_cons.1 h with h | h
  · exact absurd h (by decide)
  · exact shortHash_no_slash t h

theorem hashPart_length (t : String) : ('_' :: shortHashChars t).length = 9 := by
  simp [shortHash_length]

theorem hashPart_ne_nil (t : String) : '_' :: shortHashChars t ≠ [] := by simp

theorem hashPart_ne_dot (t : String) : '_' :: shortHashChars t ≠ ['.'] := fun h => by
  have := congrArg List.length h
  rw [hashPart_length] at this
  simp at this

theorem hashPart_ne_dotdot (t : String) : '_' :: shortHashChars t ≠ ['.', '.'] := fun h => by
  have := congrArg List.length h
  rw [hashPart_length] at this
  simp at this

/-- The final path component of every backup path is the target's base
name (with the root base collapsing to the empty prelude) followed by an
underscore and the 8-character truncated digest. -/
theorem lastPart_getBackupPath (bd t : String) :
    lastPartAfterSlash (getBackupPath bd t)
      = (if goBase t = "/" then [] else (goBase t).data) ++ '_' :: shortHashChars t := by
  have hm := hashPart_no_slash t
  have hne1 := hashPart_ne_nil t
  have hne2 := hashPart_ne_dot t
  have hne3 := hashPart_ne_dotdot t
  unfold getBackupPath
  rcases goBase_cases t with hb | ⟨hb1, hb2⟩
  · rw [if_pos hb]
    have hname : (goBase t).data ++ '_' :: shortHashChars t
        = '/' :: ('_' :: shortHashChars t) := by
      rw [hb]
      rfl
    rw [hname]
    by_cases hbd : bd = ""
    · subst hbd
      rw [goJoin_empty_left (strMkNe _ (by simp))]
      refine goClean_lastPart _ (by simp) [] _ hm ?_
      have hsplit : splitSlash ('/' :: ('_' :: shortHashChars t))
          = [[], '_' :: shortHashChars t] := by
        unfold splitSlash
        rw [splitGo_cons, if_pos rfl, splitGo_no_slash _ _ hm]
        rfl
      rw [hsplit]
      have := cleanParts_concat_empty_normal
        (isAbsChars ('/' :: ('_' :: shortHashChars t))) [] _ hne1 hne2 hne3
      simpa using this
    · rw [goJoin_both hbd (strMkNe _ (by simp))]
      refine goClean_lastPart _ (by simp)
        (cleanParts (isAbsChars (bd.data ++ '/' :: ('/' :: ('_' :: shortHashChars t))))
          (splitSlash bd.data)) _ hm ?_
      have hsplit : splitSlash (bd.data ++ '/' :: ('/' :: ('_' :: shortHashChars t)))
          = splitSlash bd.data ++ [[], '_' :: shortHashChars t] := by
        unfold splitSlash
        rw [splitGo_append]
        congr 1
        rw [splitGo_cons, if_pos rfl, splitGo_no_slash _ _ hm]
        rfl
      rw [hsplit]
      exact cleanParts_concat_empty_normal _ _ _ hne1 hne2 hne3
  · have hbne : goBase t ≠ "/" := fun h => hb2 (by rw [h]; exact List.mem_cons_self _ _)
    rw [if_neg hbne]
    have hnname : '/' ∉ (goBase t).data ++ '_' :: shortHashChars t := by
      intro h
      rcases List.mem_append.1 h with h | h
      · exact hb2 h
      · exact hm h
    have hne1' : (goBase t).data ++ '_' :: shortHashChars t ≠ [] := by simp
    have hne2' : (goBase t).data ++ '_' :: shortHashChars t ≠ ['.'] := fun h => by
      have := congrArg List.length h
      rw [List.length_append, hashPart_length] at this
      simp at this
    have hne3' : (goBase t).data ++ '_' :: shortHashChars t ≠ ['.', '.'] := fun h => by
      have := congrArg List.length h
      rw [List.length_append, hashPart_length] at this
      simp at this
    by_cases hbd : bd = ""
    · subst hbd
      rw [goJoin_empty_left (strMkNe _ hne1')]
      refine goClean_lastPart _ hne1' [] _ hnname ?_
      have hsplit : splitSlash ((goBase t).data ++ '_' :: shortHashChars t)
          = [(goBase t).data ++ '_' :: shortHashChars t] := by
        unfold splitSlash
        rw [splitGo_no_slash _ _ hnname]
        rfl
      rw [hsplit]
      have := cleanParts_concat_normal
        (isAbsChars ((goBase t).data ++ '_' :: shortHashChars t)) [] _ hne1' hne2' hne3'
      simpa using this
    · rw [goJoin_both hbd (strMkNe _ hne1')]
      refine goClean_lastPart _ (by simp)
        (cleanParts (isAbsChars (bd.data ++ '/' :: ((goBase t).data ++ '_' :: shortHashChars t)))
          (splitSlash bd.data)) _ hnname ?_
      have hsplit : splitSlash (bd.data ++ '/' :: ((goBase t).data ++ '_' :: shortHashChars t))
          = splitSlash bd.data ++ [(goBase t).data ++ '_' :: shortHashChars t] := by
        unfold splitSlash
        rw [splitGo_append]
        congr 1
        rw [splitGo_no_slash _ _ hnname]
        rfl
      rw [hsplit]
      exact cleanParts_concat_normal _ _ _ hne1' hne2' hne3'

/-- C7: `getBackupPath` is the pure function joining the fixed backup
root with the single component `<base name>_<first 8 hex characters of
the SHA-256 digest of the target path>` (determinism is definitional:
the embedding is a pure function of the target path); the truncated
digest always has 8 characters, the built path always ends in that
component, and two target paths can collide only when they share both
the base name and the truncated digest. -/
theorem c7_backup_path :
    (∀ bd t : String,
      getBackupPath bd t = goJoin bd ⟨(goBase t).data ++ '_' :: shortHashChars t⟩ ∧
      shortHashChars t = (hexEncode (sha256 (strBytes t))).take 8 ∧
      (shortHashChars t).length = 8 ∧
      lastPartAfterSlash (getBackupPath bd t)
        = (if goBase t = "/" then [] else (goBase t).data) ++ '_' :: shortHashChars t) ∧
    (∀ bd t1 t2 : String, getBackupPath bd t1 = getBackupPath bd t2 →
      goBase t1 = goBase t2 ∧ shortHashChars t1 = shortHashChars t2) := by
  constructor
  · intro bd t
    exact ⟨rfl, rfl, shortHash_length t, lastPart_getBackupPath bd t⟩
  · intro bd t1 t2 h
    have hl := congrArg lastPartAfterSlash h
    rw [lastPart_getBackupPath, lastPart_getBackupPath] at hl
    have hlen : ('_' :: shortHashChars t1).length = ('_' :: shortHashChars t2).length := by
      rw [hashPart_length, hashPart_length]
    obtain ⟨hstrip, hm⟩ := List.append_inj' hl hlen
    have hhash : shortHashChars t1 = shortHashChars t2 := by injection hm
    refine ⟨?_, hhash⟩
    by_cases h1 : goBase t1 = "/"
    · by_cases h2 : goBase t2 = "/"
      · rw [h1, h2]
      · rw [if_pos h1, if_neg h2] at hstrip
        rcases goBase_cases t2 with hh | ⟨hh1, -⟩
        · exact absurd hh h2
        · exact absurd hstrip.symm hh1
    · by_cases h2 : goBase t2 = "/"
      · rw [if_neg h1, if_pos h2] at hstrip
        rcases goBase_cases t1 with hh | ⟨hh1, -⟩
        · exact absurd hh h1
        · exact absurd hstrip hh1
      · rw [if_neg h1, if_neg h2] at hstrip
        exact strDataInj hstrip

/-- Witness for C7: the collision implication discharged at a concrete
backup root and target, next to the concrete shape of the built path. -/
theorem c7_witness :
    (goBase "/x" = goBase "/x" ∧ shortHashChars "/x" = shortHashChars "/x") ∧
    getBackupPath "/b" "/x" = goJoin "/b" ⟨(goBase "/x").data ++ '_' :: shortHashChars "/x"⟩ :=
  ⟨c7_backup_path.2 "/b" "/x" "/x" rfl, (c7_backup_path.1 "/b" "/x").1⟩

-- Sanity checks against Go behaviour.
example : goClean "/a//b/./c/.." = "/a/b" := by decide
example : goClean "a/../.." = ".." := by decide
example : goClean "/.." = "/" := by decide
example : goClean "" = "." := by decide
example : goJoin "/home/u" "x" = "/home/u/x" := by decide
example : goDir "/a/b" = "/a" := by decide
example : goDir "a" = "." := by decide
example : goDir "/a" = "/" := by decide
example : goBase "/a/b/" = "b" := by decide
example : goBase "///" = "/" := by decide
example : goBase "" = "." := by decide
example : expandPath "~" "/home/u" = "/home/u" := by decide
example : expandPath "~/x" "/home/u" = "/home/u/x" := by decide
example : expandPath "~user/x" "/home/u" = "~user/x" := by decide

end HideDot
